import Mathlib

set_option linter.dupNamespace false

/-!
Shallow embedding of the flagr library (a layered configuration / flag
resolution layer over the Go standard `flag` package) together with proofs
about its resolution pipeline, provenance tracking, visitors and value boxes.

The embedding follows the source:
* `GoError` models Go `error` values as opaque data (a parse error message,
  the `no such flag -name` error produced by the flag-set lookup, the help
  sentinel, and `fmt.Errorf("...: %w", err)` wrapping).
* `Flagr.value` / `Flagr.Var` / `Flagr.set` model the scalar value box and
  the stock setter combinator (`set(parse)` writes only after a successful
  parse).
* `Flagr.slice` / `Flagr.Slice` model the accumulating sequence value box
  with its first-write-clears-defaults semantics; a small heap model
  (`Flagr.Heap`, `Flagr.sliceRef`) makes the `make`/`copy` defensive copy of
  the caller's default slice observable.
* `Flagr.Set` models the flag registry: the declared (`formal`) flags, the
  set (`actual`) flag names maintained by the underlying standard flag set,
  and the provenance map `provideMap`.  The standard-library primary
  argument parse is an external collaborator and is passed to `Set.Parse`
  as a function parameter.
* `Flagr.envParse` models the env secondary pass (`env.Parse`'s returned
  closure), with the OS environment lookup and the parsed `.env` file data
  as function parameters.
-/

namespace Flagr

/-- Model of Go `error` values as used by the library: an opaque message
(parse failures and similar), the `no such flag` error from the flag-set
lookup, the help sentinel `ErrHelp`, and `fmt.Errorf` wrapping. -/
inductive GoError where
  | msg (s : String)
  | noSuchFlag (name : String)
  | help
  | wrapped (pre : String) (inner : GoError)
deriving DecidableEq, Repr

/-- Source identifies who set the value for a given flag (Go: `type Source string`). -/
abbrev Source := String

/-- Go: `SourceDefaultVal Source = "default"`. -/
def SourceDefaultVal : Source := "default"

/-- Go: `SourceFlags Source = "flags"`. -/
def SourceFlags : Source := "flags"

/-- The error handling policy of a flag set (Go `flag.ErrorHandling`). -/
inductive ErrorHandling where
  | continueOnError
  | exitOnError
  | panicOnError
deriving DecidableEq, Repr

/-- Go `ValParser[T]`: a function that parses a string into `T` or fails. -/
abbrev ValParser (α : Type) := String → Except GoError α

/-- Go `ValSetter[T]` realized as a pure function: given the current value
and the raw string it returns the new value together with an optional error.
On error the pair's first component is the (possibly mutated) value. -/
abbrev ValSetter (α : Type) := α → String → α × Option GoError

/-- Go `set[T](parse)`: the stock setter combinator.  It parses `s` and
assigns the result only on success; on a parse error the stored value is
returned unchanged together with the parser's error. -/
def set (parse : ValParser α) : ValSetter α :=
  fun t s =>
    match parse s with
    | .error e => (t, some e)
    | .ok v => (v, none)

/-- Go `value[T]`: the scalar value box, holding the current value and its setter. -/
structure value (α : Type) where
  Value : α
  Setter : ValSetter α

/-- Go `Var[T](val, setter)`: builds a scalar value box around a default value. -/
def Var (val : α) (setter : ValSetter α) : value α :=
  { Value := val, Setter := setter }

/-- Go `value[T].Set(s)`: delegates to the stored setter on the stored value. -/
def value.Set (v : value α) (s : String) : value α × Option GoError :=
  match v.Setter v.Value s with
  | (t, e) => ({ v with Value := t }, e)

/-- Go `strconv.ParseBool`, a stock parser: accepts exactly the twelve
literal forms and rejects everything else with a syntax error. -/
def parseBool (str : String) : Except GoError Bool :=
  if str = "1" ∨ str = "t" ∨ str = "T" ∨ str = "true" ∨ str = "TRUE" ∨ str = "True" then
    .ok true
  else if str = "0" ∨ str = "f" ∨ str = "F" ∨ str = "false" ∨ str = "FALSE" ∨ str = "False" then
    .ok false
  else
    .error (.msg ("strconv.ParseBool: parsing \"" ++ str ++ "\": invalid syntax"))

/-- Go `parseString`: never fails. -/
def parseString (s : String) : Except GoError String := .ok s

/-- Go `slice[T, S]`: the accumulating sequence value box.  `Value` is the
stored sequence, `Default` is the (never assigned) default field of the Go
struct, `Parse` the element parser and `written` the first-write marker. -/
structure slice (α : Type) where
  Value : List α
  Default : List α
  Parse : ValParser α
  written : Bool

/-- Go `Slice(defaultValue, parse)`: the stored sequence starts as a copy of
the caller's default sequence (`make` + `copy`; the aliasing aspect of that
copy is modelled separately by `SliceRefMk` on the heap model) and
`written` starts false. -/
def Slice (defaultValue : List α) (parse : ValParser α) : slice α :=
  { Value := defaultValue, Default := [], Parse := parse, written := false }

/-- Go `slice[T, S].Set(s)`: on the first call since construction the stored
sequence is truncated to empty and `written` is marked, before parsing;
then the raw string is parsed and appended on success, the parse error being
returned without appending on failure. -/
def slice.Set (f : slice α) (s : String) : slice α × Option GoError :=
  let f := if f.written = false then { f with Value := ([] : List α), written := true } else f
  match f.Parse s with
  | .error e => (f, some e)
  | .ok v => ({ f with Value := f.Value ++ [v] }, none)

/-- Driver folding `slice.Set` over a list of raw occurrences of the flag,
stopping at the first error, as the primary parse does for repeated flags. -/
def setAll (f : slice α) : List String → slice α × Option GoError
  | [] => (f, none)
  | s :: rest =>
    match f.Set s with
    | (f', some e) => (f', some e)
    | (f', none) => setAll f' rest

/-- A heap of slice cells, making Go slice aliasing observable: each cell is
the backing storage of one slice, addressed by its index. -/
structure Heap (α : Type) where
  cells : List (List α)

/-- Reads the contents of the cell at address `i`. -/
def Heap.read (h : Heap α) (i : Nat) : List α := h.cells.getD i []

/-- Overwrites the contents of the cell at address `i`. -/
def Heap.write (h : Heap α) (i : Nat) (v : List α) : Heap α := ⟨h.cells.set i v⟩

/-- Allocates a fresh cell holding `v`, returning its address. -/
def Heap.alloc (h : Heap α) (v : List α) : Heap α × Nat :=
  (⟨h.cells ++ [v]⟩, h.cells.length)

/-- The heap-level view of a `slice` value box: the address of its backing
cell plus the first-write marker. -/
structure sliceRef where
  valueAddr : Nat
  written : Bool

/-- Heap-level Go `Slice(defaultValue, parse)`: `vcopy := make(S, len(defaultValue));
copy(vcopy, defaultValue)` — reads the caller's default cell, allocates a
fresh cell with the same contents, and points the box at the fresh cell. -/
def SliceRefMk (h : Heap α) (defaultAddr : Nat) : Heap α × sliceRef :=
  let vcopy := h.read defaultAddr
  let (h', a) := h.alloc vcopy
  (h', { valueAddr := a, written := false })

/-- Heap-level Go `slice[T, S].Set(s)`: truncation and append act only on the
box's own backing cell. -/
def sliceRef.Set (parse : ValParser α) (h : Heap α) (f : sliceRef) (s : String) :
    Heap α × sliceRef × Option GoError :=
  let p := if f.written = false then (h.write f.valueAddr [], { f with written := true }) else (h, f)
  match p with
  | (h, f) =>
    match parse s with
    | .error e => (h, f, some e)
    | .ok v => (h.write f.valueAddr (h.read f.valueAddr ++ [v]), f, none)

/-- Driver folding the heap-level `sliceRef.Set` over raw occurrences. -/
def sliceRef.SetAll (parse : ValParser α) (h : Heap α) (f : sliceRef) :
    List String → Heap α × sliceRef × Option GoError
  | [] => (h, f, none)
  | s :: rest =>
    match sliceRef.Set parse h f s with
    | (h', f', some e) => (h', f', some e)
    | (h', f', none) => sliceRef.SetAll parse h' f' rest

/-- One declared flag of the underlying standard flag set: its name, its
current value and its `Value.Set` behaviour (the value box, state passed
explicitly). -/
structure GoFlag (V : Type) where
  name : String
  value : V
  setf : ValSetter V

/-- Go `flagr.Set`: the registry.  `formal` are the declared flags and
`actual` the names the underlying flag set has recorded as set (a Go map,
modelled as a duplicate-free insertion list); `provideMap` is the
provenance map and `errorHandling` the policy of the underlying flag set. -/
structure Set (V : Type) where
  formal : List (GoFlag V)
  actual : List String
  provideMap : String → Option Source
  errorHandling : ErrorHandling

/-- The declared flag names, in declaration order. -/
def formalNames (st : Set V) : List String := st.formal.map (·.name)

/-- Byte-wise lexicographic comparison of flag names, as Go compares
strings: code points compared in order, a prefix sorting first. -/
def charListLe : List Char → List Char → Bool
  | [], _ => true
  | _ :: _, [] => false
  | a :: as, b :: bs =>
    if a.val < b.val then true
    else if b.val < a.val then false
    else charListLe as bs

/-- The name order used by `sortNames`, as a proposition. -/
def strLe (a b : String) : Prop := charListLe a.data b.data = true

instance : DecidableRel strLe := fun a b =>
  inferInstanceAs (Decidable (charListLe a.data b.data = true))

/-- Lexicographic sorting of flag names (Go `sortFlags`). -/
def sortNames (l : List String) : List String := l.insertionSort strLe

/-- The declared flag names in lexicographic order, as iterated by
`flag.FlagSet.VisitAll`. -/
def sortedFormalNames (st : Set V) : List String := sortNames (formalNames st)

/-- The set flag names in lexicographic order, as iterated by
`flag.FlagSet.Visit`. -/
def sortedActualNames (st : Set V) : List String := sortNames st.actual

/-- Lookup of a declared flag by name (Go `f.formal[name]`). -/
def findFlag (st : Set V) (name : String) : Option (GoFlag V) :=
  st.formal.find? (fun g => g.name == name)

/-- Replaces the stored value of the named flag (the effect of the Go
`flag.Value.Set` mutation seen through the registry). -/
def updateFlagValue (l : List (GoFlag V)) (name : String) (v : V) : List (GoFlag V) :=
  l.map (fun g => if g.name == name then { g with value := v } else g)

/-- Records a name in the `actual` map (Go `f.actual[name] = flag`). -/
def insertActual (l : List String) (n : String) : List String :=
  if n ∈ l then l else l ++ [n]

/-- Point update of the provenance map (Go `set.provideMap[name] = src`). -/
def updateProv (pm : String → Option Source) (n : String) (s : Source) :
    String → Option Source :=
  fun m => if m = n then some s else pm m

/-- Go `flag.FlagSet.Set(name, value)`: looks the flag up in `formal`
(failing with the `no such flag` error if absent), invokes the flag's
`Value.Set` — whose mutation of the value happens even when it errors —
and records the name in `actual` only on success. -/
def fsSet (st : Set V) (name value : String) : Set V × Option GoError :=
  match findFlag st name with
  | none => (st, some (.noSuchFlag name))
  | some fl =>
    match fl.setf fl.value value with
    | (v', e) =>
      let st' := { st with formal := updateFlagValue st.formal name v' }
      match e with
      | some e => (st', some e)
      | none => ({ st' with actual := insertActual st'.actual name }, none)

/-- Go `flagr.Set.Set(src, name, value)`: delegates to the underlying flag
set's `Set`, returning its error unchanged on failure, and recording
`provideMap[name] = src` on success. -/
def Set.Set (st : Flagr.Set V) (src : Source) (name value : String) : Set V × Option GoError :=
  match fsSet st name value with
  | (st', some e) => (st', some e)
  | (st', none) => ({ st' with provideMap := updateProv st'.provideMap name src }, none)

/-- A visitor callback: it receives the registry (which it may mutate, e.g.
by setting flags) and the visited flag's name, and may return an error. -/
abbrev VisitFn (V : Type) := Set V → String → Set V × Option GoError

/-- The shared traversal underlying the three visitors: `fn` is invoked on
each name of the snapshot list in turn, threading the registry; as soon as
`fn` returns an error the traversal invokes `fn` no further (the Go wrappers
guard every later iteration with `if visitErr != nil`) and that error is
returned. -/
def visitList (fn : VisitFn V) : Set V → List String → Set V × Option GoError
  | st, [] => (st, none)
  | st, n :: rest =>
    match fn st n with
    | (st', some e) => (st', some e)
    | (st', none) => visitList fn st' rest

/-- Go `flagr.Set.VisitAll(fn)`: every declared flag, lexicographic order,
stopping at the first callback error. -/
def Set.VisitAll (st : Flagr.Set V) (fn : VisitFn V) : Flagr.Set V × Option GoError :=
  visitList fn st (sortedFormalNames st)

/-- Go `flagr.Set.Visit(fn)`: every set flag, lexicographic order, stopping
at the first callback error. -/
def Set.Visit (st : Flagr.Set V) (fn : VisitFn V) : Flagr.Set V × Option GoError :=
  visitList fn st (sortedActualNames st)

/-- Go `flagr.Set.VisitRemaining(fn)`: first collects (via `Visit`) the
names already set at the moment of the call into `visited`, then runs
`VisitAll` with a callback that skips the collected names and otherwise
delegates to `fn`. -/
def Set.VisitRemaining (st : Flagr.Set V) (fn : VisitFn V) : Flagr.Set V × Option GoError :=
  let visited := sortedActualNames st
  st.VisitAll (fun st' n => if n ∈ visited then (st', none) else fn st' n)

/-- The complement list a `VisitRemaining` call iterates: the declared
names, in lexicographic order, minus the names set at the moment of the
call. -/
def remainingNames (st : Set V) : List String :=
  (sortedFormalNames st).filter (fun n => decide (¬ n ∈ sortedActualNames st))

/-- Plain full fold of a callback over a name list, never short-circuiting:
the state a visitor ends in when the callback never errors. -/
def runAll (fn : VisitFn V) : Set V → List String → Set V
  | st, [] => st
  | st, n :: rest =>
    runAll fn (fn st n).1 rest

/-- Go `flagr.Parser`: a secondary resolution pass over the registry. -/
abbrev SecParser (V : Type) := Set V → Set V × Option GoError

/-- The observable outcome of `Set.Parse`: a normal return (with or without
an error value), `os.Exit(2)`, or a panic. -/
inductive ParseOutcome (V : Type) where
  | ok (st : Set V)
  | err (st : Set V) (e : GoError)
  | exited (code : Nat)
  | panicked (e : GoError)

/-- The provenance-stamping step of `Set.Parse`: first every declared flag
is tagged `SourceDefaultVal` (a `VisitAll` fold), then every flag recorded
as set is retagged `SourceFlags` (a `Visit` fold). -/
def stamp (st : Set V) : Set V :=
  let pm1 := (sortedFormalNames st).foldl (fun pm n => updateProv pm n SourceDefaultVal)
    st.provideMap
  let pm2 := (sortedActualNames st).foldl (fun pm n => updateProv pm n SourceFlags) pm1
  { st with provideMap := pm2 }

/-- The extra-parser loop of `Set.Parse`: each parser runs in order; when one
returns an error the loop stops and the registry's error-handling policy
selects the outcome (return the error verbatim, exit with code 2, or
panic). -/
def runParsers : Set V → List (SecParser V) → ParseOutcome V
  | st, [] => .ok st
  | st, p :: rest =>
    match p st with
    | (st', none) => runParsers st' rest
    | (st', some e) =>
      match st'.errorHandling with
      | .continueOnError => .err st' e
      | .exitOnError => .exited 2
      | .panicOnError => .panicked e

/-- Go `flagr.Set.Parse(arguments, extraParsers...)`.  The primary argument
parse (`set.fs.Parse`, the standard library tokenizer — an external
collaborator) is passed as the function `primary`; if it fails its error is
returned at once, otherwise provenance is stamped and the extra parsers
run. -/
def Set.Parse (st : Flagr.Set V) (primary : Flagr.Set V → List String → Flagr.Set V × Option GoError)
    (arguments : List String) (extraParsers : List (SecParser V)) : ParseOutcome V :=
  match primary st arguments with
  | (st1, some e) => .err st1 e
  | (st1, none) => runParsers (stamp st1) extraParsers

/-- Whether a parse outcome is a normal, error-free return. -/
def ParseOutcome.isOk : ParseOutcome V → Bool
  | .ok _ => true
  | _ => false

/-- The provenance entry of `n` in the registry a parse outcome carries. -/
def provOf : ParseOutcome V → String → Option Source
  | .ok st, n => st.provideMap n
  | .err st _, n => st.provideMap n
  | _, _ => none

/-- Semantic characterisation of a well-behaved secondary pass — one that
discovers eligible flags only through `VisitRemaining` and sets them through
`Set.Set`: it preserves the declared names, never unsets a set flag, never
touches the provenance of an already-set flag, and only adds provenance
entries. -/
def PreservesSet (p : SecParser V) : Prop :=
  ∀ st : Set V,
    formalNames (p st).1 = formalNames st ∧
    (∀ m ∈ st.actual, m ∈ (p st).1.actual) ∧
    (∀ m ∈ st.actual, (p st).1.provideMap m = st.provideMap m) ∧
    (∀ m, (p st).1.provideMap m = none → st.provideMap m = none)

/-- Per-step frame property of a visitor callback: one invocation on flag
`n` preserves the declared names, only grows the set-flag record, touches no
provenance entry other than `n`'s, and only adds provenance entries. -/
def FrameStep (g : VisitFn V) : Prop :=
  ∀ (st : Set V) (n : String),
    formalNames (g st n).1 = formalNames st ∧
    (∀ m ∈ st.actual, m ∈ (g st n).1.actual) ∧
    (∀ m, m ≠ n → (g st n).1.provideMap m = st.provideMap m) ∧
    (∀ m, (g st n).1.provideMap m = none → st.provideMap m = none)

/-- The options of the env pass after `env.Parse` applied them: the flag
prefix, the flag-name mapper (returning the env var name and the list
splitter, empty string meaning no splitting), the environment lookup
function, the optional `.env` file path and its already-parsed contents. -/
structure EnvOptions where
  pfx : String
  mapper : String → String × String
  lookupFunc : String → Option String
  envFile : Option String
  fileData : String → Option String

/-- The split loop of the env callback: each element of the split value is
fed through `Set.Set`, errors being wrapped with the `env:` prefix. -/
def setSplit (st : Set V) (src : Source) (flagName : String) :
    List String → Set V × Option GoError
  | [] => (st, none)
  | v :: rest =>
    match st.Set src flagName v with
    | (st', some e) => (st', some (.wrapped "env: " e))
    | (st', none) => setSplit st' src flagName rest

/-- The callback `env.Parse` passes to `VisitRemaining`: maps the prefixed
flag name to an env var, looks it up (falling back to the `.env` file data,
adjusting the source label when a file was configured), and if found sets
the flag once or once per split element. -/
def envCallback (o : EnvOptions) (st : Set V) (flagName : String) : Set V × Option GoError :=
  match o.mapper (o.pfx ++ flagName) with
  | (name, splitValBy) =>
    let src0 : Source := "env: " ++ name
    let lookedUp : Option String × Source :=
      match o.lookupFunc name with
      | some v => (some v, src0)
      | none =>
        match o.envFile with
        | some path => (o.fileData name, "envfile[" ++ path ++ "]: " ++ name)
        | none => (o.fileData name, src0)
    match lookedUp with
    | (none, _) => (st, none)
    | (some val, src) =>
      if splitValBy ≠ "" then
        setSplit st src flagName (val.splitOn splitValBy)
      else
        match st.Set src flagName val with
        | (st', some e) => (st', some (.wrapped "env: " e))
        | (st', none) => (st', none)

/-- The secondary pass `env.Parse(opts...)` returns: a `VisitRemaining`
traversal with `envCallback`. -/
def envParse (o : EnvOptions) : SecParser V :=
  fun st => st.VisitRemaining (envCallback o)



/-- A trivial value setter for the concrete test registries: stores the raw string. -/
def wSetf : ValSetter String := fun _ s => (s, none)

/-- Concrete flag "a" for witnesses. -/
def wFlagA : GoFlag String := { name := "a", value := "", setf := wSetf }

/-- Concrete flag "b" for witnesses. -/
def wFlagB : GoFlag String := { name := "b", value := "", setf := wSetf }

/-- A concrete fresh registry declaring flags "a" and "b". -/
def wSt : Set String :=
  { formal := [wFlagA, wFlagB], actual := [], provideMap := fun _ => none,
    errorHandling := .continueOnError }

/-- The concrete registry after a primary parse that consumed flag "a". -/
def wStA : Set String := { wSt with actual := ["a"] }

/-- A callback that never errors. -/
def wFnOk : VisitFn String := fun st _ => (st, none)

/-- A callback failing exactly on flag "b". -/
def wFnFailB : VisitFn String :=
  fun st n => if n = "b" then (st, some (.msg "boom")) else (st, none)

/-- A secondary parser that succeeds without touching the registry. -/
def wPassOk : SecParser String := fun st => (st, none)

/-- A secondary parser that fails. -/
def wPassFail : SecParser String := fun st => (st, some (.msg "boom"))

/-- A primary parse that fails (e.g. an unknown flag). -/
def wPrimaryFail : Set String → List String → Set String × Option GoError :=
  fun st _ => (st, some (.msg "flag provided but not defined: -x"))

/-- A primary parse that succeeds consuming nothing. -/
def wPrimaryOk : Set String → List String → Set String × Option GoError :=
  fun st _ => (st, none)

/-- A primary parse that succeeds consuming flag "a". -/
def wPrimaryConsumeA : Set String → List String → Set String × Option GoError :=
  fun st _ => ({ st with actual := ["a"] }, none)

/-- Concrete env-pass options: identity mapper, no splитting, environment
holding only variable "b". -/
def wEnvOpts : EnvOptions :=
  { pfx := "", mapper := fun n => (n, ""),
    lookupFunc := fun n => if n = "b" then some "bval" else none,
    envFile := none, fileData := fun _ => none }

section ValueProofs

variable {α : Type}

lemma set_error (parse : ValParser α) (t : α) (raw : String) (e : GoError)
    (h : parse raw = .error e) : set parse t raw = (t, some e) := by
  simp [set, h]

lemma set_ok (parse : ValParser α) (t : α) (raw : String) (v : α)
    (h : parse raw = .ok v) : set parse t raw = (v, none) := by
  simp [set, h]

/-- C8: for every scalar flag built from a stock parser through the `set`
combinator, calling `Set` with a string the parser rejects returns the
parser's error and leaves the stored value box exactly as it was before the
call. -/
theorem stock_scalar_set_atomic (parse : ValParser α) (t : α) (raw : String) (e : GoError)
    (h : parse raw = .error e) :
    value.Set (Var t (set parse)) raw = (Var t (set parse), some e) := by
  simp [value.Set, Var, set, h]

/-- Witness for C8: `strconv.ParseBool` rejects "zzz" and the boolean flag
box keeps its previous value `true`. -/
theorem stock_scalar_set_atomic_witness :
    parseBool "zzz" = .error (.msg "strconv.ParseBool: parsing \"zzz\": invalid syntax") ∧
    value.Set (Var true (set parseBool)) "zzz" =
      (Var true (set parseBool),
        some (.msg "strconv.ParseBool: parsing \"zzz\": invalid syntax")) :=
  ⟨rfl, stock_scalar_set_atomic parseBool true "zzz" _ rfl⟩

/-- C10: if the very first `Set` call on a freshly constructed sequence flag
is given an unparseable string, the parse error is returned but the default
sequence has already been discarded — the value is left empty, `written` is
tripped, and any later successful `Set` appends to that empty sequence. -/
theorem slice_first_set_error_clears (parse : ValParser α) (ds : List α) (s : String)
    (e : GoError) (h : parse s = .error e) :
    ((Slice ds parse).Set s).2 = some e ∧
    ((Slice ds parse).Set s).1.Value = [] ∧
    ((Slice ds parse).Set s).1.written = true ∧
    ∀ s' v, parse s' = .ok v →
      (((Slice ds parse).Set s).1.Set s').1.Value = [v] ∧
      (((Slice ds parse).Set s).1.Set s').2 = none := by
  refine ⟨?_, ?_, ?_, ?_⟩
  · simp [Slice, slice.Set, h]
  · simp [Slice, slice.Set, h]
  · simp [Slice, slice.Set, h]
  · intro s' v hv
    simp [Slice, slice.Set, h, hv]

/-- Witness for C10: the first `Set` of a `[true]`-defaulted bool sequence
flag with "zzz" errors and empties the value; a following `Set "false"`
yields exactly `[false]`. -/
theorem slice_first_set_error_clears_witness :
    ((Slice [true] parseBool).Set "zzz").2 =
        some (.msg "strconv.ParseBool: parsing \"zzz\": invalid syntax") ∧
    ((Slice [true] parseBool).Set "zzz").1.Value = [] ∧
    (((Slice [true] parseBool).Set "zzz").1.Set "false").1.Value = [false] := by
  have h := slice_first_set_error_clears parseBool [true] "zzz" _ rfl
  exact ⟨h.1, h.2.1, (h.2.2.2 "false" false rfl).1⟩

lemma setAll_written_ok (parse : ValParser α) :
    ∀ (ss : List String) (cur dflt : List α),
      (∀ s ∈ ss, ∃ v, parse s = .ok v) →
      setAll { Value := cur, Default := dflt, Parse := parse, written := true } ss =
        ({ Value := cur ++ ss.filterMap (fun s => (parse s).toOption), Default := dflt,
           Parse := parse, written := true }, none) := by
  intro ss
  induction ss with
  | nil => intro cur dflt _; simp [setAll]
  | cons s rest ih =>
    intro cur dflt h
    obtain ⟨v, hv⟩ := h s (by simp)
    have hrest : ∀ s ∈ rest, ∃ v, parse s = .ok v := fun s hs => h s (by simp [hs])
    simp only [setAll, slice.Set]
    simp only [hv, List.filterMap_cons]
    simp [ih (cur ++ [v]) dflt hrest, hv, Except.toOption]

lemma filterMap_ok_length (parse : ValParser α) :
    ∀ ss : List String, (∀ s ∈ ss, ∃ v, parse s = .ok v) →
      (ss.filterMap (fun s => (parse s).toOption)).length = ss.length := by
  intro ss
  induction ss with
  | nil => intro _; rfl
  | cons s rest ih =>
    intro h
    obtain ⟨v, hv⟩ := h s (by simp)
    have hrest : ∀ s ∈ rest, ∃ v, parse s = .ok v := fun s hs => h s (by simp [hs])
    have hopt : (parse s).toOption = some v := by simp [hv, Except.toOption]
    simp only [List.filterMap_cons, hopt, List.length_cons, ih hrest]

/-- C5: a sequence flag provided N ≥ 1 times with parseable values ends with
exactly N elements, the parses of the occurrences in order, the default
sequence being fully discarded; provided zero times it keeps the default. -/
theorem slice_accumulates (parse : ValParser α) (ds : List α) (ss : List String) :
    (ss ≠ [] → (∀ s ∈ ss, ∃ v, parse s = .ok v) →
      (setAll (Slice ds parse) ss).2 = none ∧
      (setAll (Slice ds parse) ss).1.Value = ss.filterMap (fun s => (parse s).toOption) ∧
      ((setAll (Slice ds parse) ss).1.Value).length = ss.length) ∧
    setAll (Slice ds parse) [] = (Slice ds parse, none) := by
  constructor
  · intro hne h
    match ss, hne with
    | s :: rest, _ =>
      obtain ⟨v, hv⟩ := h s (by simp)
      have hrest : ∀ s ∈ rest, ∃ v, parse s = .ok v := fun s hs => h s (by simp [hs])
      have hstep : (Slice ds parse).Set s =
          ({ Value := [v], Default := [], Parse := parse, written := true }, none) := by
        simp [Slice, slice.Set, hv]
      have hall := setAll_written_ok parse rest [v] [] hrest
      refine ⟨?_, ?_, ?_⟩
      · simp [setAll, hstep, hall]
      · simp [setAll, hstep, hall, hv, Except.toOption]
      · have hlen := filterMap_ok_length parse rest hrest
        have hopt : (parse s).toOption = some v := by simp [hv, Except.toOption]
        simp only [setAll, hstep, hall, List.filterMap_cons, hopt, List.length_cons,
          List.cons_append, List.nil_append, List.length_cons, hlen]
  · rfl

/-- Witness for C5: a bool sequence flag with default `[true]` provided
twice ends with exactly the two parsed occurrences, and provided zero times
keeps the default. -/
theorem slice_accumulates_witness :
    (setAll (Slice [true] parseBool) ["false", "true"]).2 = none ∧
    (setAll (Slice [true] parseBool) ["false", "true"]).1.Value = [false, true] ∧
    (setAll (Slice [true] parseBool) []).1.Value = [true] := by
  have h := slice_accumulates parseBool [true] ["false", "true"]
  have hok : ∀ s ∈ ["false", "true"], ∃ v, parseBool s = .ok v := by
    intro s hs
    rcases List.mem_cons.mp hs with h1 | h1
    · exact ⟨false, by rw [h1]; rfl⟩
    · rcases List.mem_cons.mp h1 with h2 | h2
      · exact ⟨true, by rw [h2]; rfl⟩
      · simp at h2
  have h1 := h.1 (by simp) hok
  exact ⟨h1.1, by simpa using h1.2.1, by rw [h.2]; rfl⟩

end ValueProofs

section HeapProofs

variable {α : Type}

lemma heap_read_write_ne (h : Heap α) (i j : Nat) (v : List α) (hij : i ≠ j) :
    (h.write i v).read j = h.read j := by
  simp [Heap.read, Heap.write, List.getD_eq_getElem?_getD, List.getElem?_set_ne hij]

lemma heap_read_alloc_lt (h : Heap α) (v : List α) (j : Nat) (hj : j < h.cells.length) :
    (h.alloc v).1.read j = h.read j := by
  simp [Heap.read, Heap.alloc, List.getD_eq_getElem?_getD, List.getElem?_append, hj]

lemma heap_read_alloc_self (h : Heap α) (v : List α) :
    (h.alloc v).1.read h.cells.length = v := by
  simp [Heap.read, Heap.alloc, List.getD_eq_getElem?_getD, List.getElem?_concat_length]

lemma sliceRefSet_frame (parse : ValParser α) (h : Heap α) (f : sliceRef) (s : String) :
    ((sliceRef.Set parse h f s).2.1).valueAddr = f.valueAddr ∧
    ∀ j, j ≠ f.valueAddr → ((sliceRef.Set parse h f s).1).read j = h.read j := by
  constructor
  · cases hw : f.written <;> cases hp : parse s <;> simp [sliceRef.Set, hw, hp]
  · intro j hj
    have hne : f.valueAddr ≠ j := Ne.symm hj
    cases hw : f.written <;> cases hp : parse s <;>
      simp [sliceRef.Set, hw, hp, heap_read_write_ne, hne]

lemma sliceRefSetAll_frame (parse : ValParser α) :
    ∀ (ss : List String) (h : Heap α) (f : sliceRef) (j : Nat), j ≠ f.valueAddr →
      ((sliceRef.SetAll parse h f ss).1).read j = h.read j := by
  intro ss
  induction ss with
  | nil => intro h f j hj; rfl
  | cons s rest ih =>
    intro h f j hj
    obtain ⟨haddr, hread⟩ := sliceRefSet_frame parse h f s
    rcases hres : sliceRef.Set parse h f s with ⟨h2, f2, e⟩
    rw [hres] at haddr hread
    simp only [sliceRef.SetAll, hres]
    cases e with
    | some e => exact hread j hj
    | none =>
      rw [ih h2 f2 j (by rw [haddr]; exact hj)]
      exact hread j hj

/-- C6: declaring a slice flag takes a defensive copy of the caller-owned
default slice into a fresh cell, so mutating the caller's original cell
never changes the flag's value, and setting the flag (any number of times)
never mutates the caller's original cell. -/
theorem slice_defensive_copy (h : Heap α) (d : Nat) (hd : d < h.cells.length) :
    (SliceRefMk h d).2.valueAddr ≠ d ∧
    (SliceRefMk h d).1.read (SliceRefMk h d).2.valueAddr = h.read d ∧
    (∀ w : List α, ((SliceRefMk h d).1.write d w).read (SliceRefMk h d).2.valueAddr =
      (SliceRefMk h d).1.read (SliceRefMk h d).2.valueAddr) ∧
    (∀ (parse : ValParser α) (ss : List String),
      ((sliceRef.SetAll parse (SliceRefMk h d).1 (SliceRefMk h d).2 ss).1).read d = h.read d) := by
  have haddr : (SliceRefMk h d).2.valueAddr = h.cells.length := rfl
  have hne : (SliceRefMk h d).2.valueAddr ≠ d := by rw [haddr]; omega
  refine ⟨hne, ?_, ?_, ?_⟩
  · rw [haddr]
    exact heap_read_alloc_self h (h.read d)
  · intro w
    exact heap_read_write_ne (SliceRefMk h d).1 d (SliceRefMk h d).2.valueAddr w (Ne.symm hne)
  · intro parse ss
    rw [sliceRefSetAll_frame parse ss (SliceRefMk h d).1 (SliceRefMk h d).2 d (Ne.symm hne)]
    exact heap_read_alloc_lt h (h.read d) d hd

/-- Witness for C6: a two-element default slice in cell 0; the flag's copy
lands in cell 1, overwriting cell 0 leaves the copy intact, and setting the
flag twice leaves cell 0 intact. -/
theorem slice_defensive_copy_witness :
    (0 : Nat) < (Heap.mk [[true, false]]).cells.length ∧
    (SliceRefMk (Heap.mk [[true, false]]) 0).2.valueAddr ≠ 0 ∧
    ((sliceRef.SetAll parseBool (SliceRefMk (Heap.mk [[true, false]]) 0).1
        (SliceRefMk (Heap.mk [[true, false]]) 0).2 ["true", "true"]).1).read 0 =
      (Heap.mk [[true, false]]).read 0 := by
  have h := slice_defensive_copy (Heap.mk [[true, false]]) 0 (by decide)
  exact ⟨by decide, h.1, h.2.2.2 parseBool ["true", "true"]⟩

end HeapProofs


section VisitProofs

variable {V : Type}

lemma visitList_append_ok (fn : VisitFn V) :
    ∀ (l1 : List String) (st st1 : Set V) (l2 : List String),
      visitList fn st l1 = (st1, none) →
      visitList fn st (l1 ++ l2) = visitList fn st1 l2 := by
  intro l1
  induction l1 with
  | nil =>
    intro st st1 l2 h
    injection h with h1 h2
    subst h1
    rfl
  | cons n rest ih =>
    intro st st1 l2 h
    rcases hfn : fn st n with ⟨st', e⟩
    cases e with
    | some e =>
      rw [show visitList fn st (n :: rest) = (st', some e) by simp [visitList, hfn]] at h
      injection h with h1 h2
      exact absurd h2 (by simp)
    | none =>
      rw [show visitList fn st (n :: rest) = visitList fn st' rest by simp [visitList, hfn]] at h
      simpa [visitList, hfn] using ih st' st1 l2 h

lemma visitList_cons_err (fn : VisitFn V) (st1 st2 : Set V) (x : String) (l2 : List String)
    (e : GoError) (h : fn st1 x = (st2, some e)) :
    visitList fn st1 (x :: l2) = (st2, some e) := by
  simp [visitList, h]

lemma visitList_no_err (fn : VisitFn V) (hfn : ∀ s n, (fn s n).2 = none) :
    ∀ (l : List String) (st : Set V), visitList fn st l = (runAll fn st l, none) := by
  intro l
  induction l with
  | nil => intro st; rfl
  | cons n rest ih =>
    intro st
    rcases hr : fn st n with ⟨st', e⟩
    have he : e = none := by
      have := hfn st n
      rw [hr] at this
      exact this
    subst he
    simp [visitList, runAll, hr, ih]

lemma visitList_skip (fn : VisitFn V) (vis : List String) :
    ∀ (l : List String) (st : Set V),
      visitList (fun s n => if n ∈ vis then (s, none) else fn s n) st l =
        visitList fn st (l.filter (fun n => decide (¬ n ∈ vis))) := by
  intro l
  induction l with
  | nil => intro st; rfl
  | cons n rest ih =>
    intro st
    by_cases hn : n ∈ vis
    · simp only [visitList, List.filter_cons, hn, if_pos rfl]
      simp [hn, ih]
    · simp only [visitList, List.filter_cons]
      rcases hfn : fn st n with ⟨st', e⟩
      cases e <;> simp [hn, hfn, visitList, ih]

lemma visitRemaining_eq (st : Set V) (fn : VisitFn V) :
    st.VisitRemaining fn = visitList fn st (remainingNames st) := by
  unfold Set.VisitRemaining Set.VisitAll remainingNames
  exact visitList_skip fn (sortedActualNames st) (sortedFormalNames st) st

/-- C4: a `VisitRemaining` call behaves exactly as folding the callback over
the complement of the already-set flags, computed at the moment of the call,
in lexicographic name order; that complement list has no duplicates (no flag
is revisited within the call), and any flag set — by the callback or
otherwise — is excluded from the complement of any later call. -/
theorem visitRemaining_complement (st : Set V) (fn : VisitFn V) :
    st.VisitRemaining fn = visitList fn st (remainingNames st) ∧
    ((formalNames st).Nodup → (remainingNames st).Nodup) ∧
    (∀ st' : Set V, ∀ n ∈ st'.actual, ¬ n ∈ remainingNames st') := by
  refine ⟨visitRemaining_eq st fn, ?_, ?_⟩
  · intro hnd
    have hs : (sortedFormalNames st).Nodup := by
      unfold sortedFormalNames sortNames
      exact ((List.perm_insertionSort _ _).nodup_iff).mpr hnd
    exact hs.filter _
  · intro st' n hn hmem
    unfold remainingNames at hmem
    have hp := List.of_mem_filter hmem
    have h2 : ¬ n ∈ sortedActualNames st' := of_decide_eq_true hp
    apply h2
    unfold sortedActualNames sortNames
    exact ((List.perm_insertionSort _ _).mem_iff).mpr hn

/-- Witness for C4: on the concrete registry with flags "a", "b" where "a"
is already set, the complement is duplicate-free and excludes "a". -/
theorem visitRemaining_complement_witness :
    wStA.VisitRemaining wFnOk = visitList wFnOk wStA (remainingNames wStA) ∧
    (remainingNames wStA).Nodup ∧
    ¬ "a" ∈ remainingNames wStA := by
  have h := visitRemaining_complement wStA wFnOk
  exact ⟨h.1, h.2.1 (by decide), h.2.2 wStA "a" (by decide)⟩

/-- C7: each of `VisitAll`, `Visit` and `VisitRemaining` stops at the first
callback error: if the callback succeeds on a prefix of the method's
lexicographic name list and errors on the next name, the method returns
exactly that error with the callback invoked on nothing beyond the failing
name; and if the callback never errors, the method returns no error after
folding the callback over every matching flag. -/
theorem visit_short_circuit (st : Set V) (fn : VisitFn V) :
    (∀ l1 x l2 st1 st2 e, sortedFormalNames st = l1 ++ x :: l2 →
      visitList fn st l1 = (st1, none) → fn st1 x = (st2, some e) →
      st.VisitAll fn = (st2, some e)) ∧
    (∀ l1 x l2 st1 st2 e, sortedActualNames st = l1 ++ x :: l2 →
      visitList fn st l1 = (st1, none) → fn st1 x = (st2, some e) →
      st.Visit fn = (st2, some e)) ∧
    (∀ l1 x l2 st1 st2 e, remainingNames st = l1 ++ x :: l2 →
      visitList fn st l1 = (st1, none) → fn st1 x = (st2, some e) →
      st.VisitRemaining fn = (st2, some e)) ∧
    ((∀ s n, (fn s n).2 = none) →
      st.VisitAll fn = (runAll fn st (sortedFormalNames st), none) ∧
      st.Visit fn = (runAll fn st (sortedActualNames st), none) ∧
      st.VisitRemaining fn = (runAll fn st (remainingNames st), none)) := by
  refine ⟨?_, ?_, ?_, ?_⟩
  · intro l1 x l2 st1 st2 e hdec h1 h2
    unfold Set.VisitAll
    rw [hdec, visitList_append_ok fn l1 st st1 (x :: l2) h1,
      visitList_cons_err fn st1 st2 x l2 e h2]
  · intro l1 x l2 st1 st2 e hdec h1 h2
    unfold Set.Visit
    rw [hdec, visitList_append_ok fn l1 st st1 (x :: l2) h1,
      visitList_cons_err fn st1 st2 x l2 e h2]
  · intro l1 x l2 st1 st2 e hdec h1 h2
    rw [visitRemaining_eq, hdec, visitList_append_ok fn l1 st st1 (x :: l2) h1,
      visitList_cons_err fn st1 st2 x l2 e h2]
  · intro hfn
    refine ⟨?_, ?_, ?_⟩
    · unfold Set.VisitAll
      rw [visitList_no_err fn hfn]
    · unfold Set.Visit
      rw [visitList_no_err fn hfn]
    · rw [visitRemaining_eq, visitList_no_err fn hfn]

/-- Witness for C7: on the concrete two-flag registry, a callback failing on
"b" makes `VisitAll` return that error after succeeding on "a", and a
never-failing callback makes `VisitAll` return no error. -/
theorem visit_short_circuit_witness :
    sortedFormalNames wSt = ["a"] ++ "b" :: [] ∧
    visitList wFnFailB wSt ["a"] = (wSt, none) ∧
    wFnFailB wSt "b" = (wSt, some (.msg "boom")) ∧
    wSt.VisitAll wFnFailB = (wSt, some (.msg "boom")) ∧
    (∀ s n, (wFnOk s n).2 = none) ∧
    wSt.VisitAll wFnOk = (runAll wFnOk wSt (sortedFormalNames wSt), none) := by
  have hdec : sortedFormalNames wSt = ["a"] ++ "b" :: [] := by rfl
  have hv1 : visitList wFnFailB wSt ["a"] = (wSt, none) := by
    simp [visitList, wFnFailB]
  have hvb : wFnFailB wSt "b" = (wSt, some (.msg "boom")) := by
    simp [wFnFailB]
  have hok : ∀ s n, (wFnOk s n).2 = none := fun _ _ => rfl
  exact ⟨hdec, hv1, hvb,
    (visit_short_circuit wSt wFnFailB).1 ["a"] "b" [] wSt wSt _ hdec hv1 hvb,
    hok, ((visit_short_circuit wSt wFnOk).2.2.2 hok).1⟩

/-- C3: `Set.Set(src, name, raw)` either fails because the name is not
declared (returning the lookup error with nothing changed), or fails because
the flag's own setter rejects the raw string (returning that error verbatim
with the provenance map untouched), or succeeds, updating the flag's value
and recording `provenance[name] = src`. -/
theorem set_with_provenance_spec (st : Set V) (src : Source) (name raw : String) :
    (findFlag st name = none →
      Set.Set st src name raw = (st, some (.noSuchFlag name))) ∧
    (∀ fl v' e, findFlag st name = some fl → fl.setf fl.value raw = (v', some e) →
      Set.Set st src name raw =
        ({ st with formal := updateFlagValue st.formal name v' }, some e) ∧
      (Set.Set st src name raw).1.provideMap = st.provideMap) ∧
    (∀ fl v', findFlag st name = some fl → fl.setf fl.value raw = (v', none) →
      Set.Set st src name raw =
        ({ st with formal := updateFlagValue st.formal name v',
                   actual := insertActual st.actual name,
                   provideMap := updateProv st.provideMap name src }, none) ∧
      (Set.Set st src name raw).1.provideMap name = some src) := by
  refine ⟨?_, ?_, ?_⟩
  · intro h
    simp [Set.Set, fsSet, h]
  · intro fl v' e hf hs
    have hfs : fsSet st name raw =
        ({ st with formal := updateFlagValue st.formal name v' }, some e) := by
      simp [fsSet, hf, hs]
    constructor
    · simp [Set.Set, hfs]
    · simp [Set.Set, hfs]
  · intro fl v' hf hs
    have hfs : fsSet st name raw =
        ({ st with formal := updateFlagValue st.formal name v',
                   actual := insertActual st.actual name }, none) := by
      simp [fsSet, hf, hs]
    constructor
    · simp [Set.Set, hfs]
    · simp [Set.Set, hfs, updateProv]

/-- Witness for C3: setting declared flag "a" on the concrete registry
succeeds, updating the value and recording the source. -/
theorem set_with_provenance_spec_witness :
    findFlag wSt "a" = some wFlagA ∧
    wFlagA.setf wFlagA.value "v" = ("v", none) ∧
    Set.Set wSt "env: A" "a" "v" =
      ({ wSt with formal := updateFlagValue wSt.formal "a" "v",
                  actual := insertActual wSt.actual "a",
                  provideMap := updateProv wSt.provideMap "a" "env: A" }, none) ∧
    (Set.Set wSt "env: A" "a" "v").1.provideMap "a" = some "env: A" := by
  have hf : findFlag wSt "a" = some wFlagA := by rfl
  have hs : wFlagA.setf wFlagA.value "v" = ("v", none) := rfl
  have h := (set_with_provenance_spec wSt "env: A" "a" "v").2.2 wFlagA "v" hf hs
  exact ⟨hf, hs, h.1, h.2⟩

end VisitProofs


section ParseProofs

variable {V : Type}

lemma runParsers_append_ok :
    ∀ (ps1 : List (SecParser V)) (st stM : Set V) (ps2 : List (SecParser V)),
      runParsers st ps1 = .ok stM →
      runParsers st (ps1 ++ ps2) = runParsers stM ps2 := by
  intro ps1
  induction ps1 with
  | nil =>
    intro st stM ps2 h
    cases h
    rfl
  | cons p rest ih =>
    intro st stM ps2 h
    rcases hp : p st with ⟨st', e⟩
    cases e with
    | none =>
      have h' : runParsers st' rest = .ok stM := by
        simpa [runParsers, hp] using h
      simpa [runParsers, hp] using ih st' stM ps2 h'
    | some e =>
      rcases hEH : st'.errorHandling <;> simp [runParsers, hp, hEH] at h

/-- C1: `Set.Parse` is fail-fast.  If the primary argument parse fails, that
failure is returned at once and the result does not depend on the secondary
parsers (none is invoked); if, after the primary parse succeeds, some
secondary parser errors after an error-free prefix of parsers, the result —
under the return-error policy — is exactly that error, unwrapped, and does
not depend on the parsers after the failing one. -/
theorem parse_fail_fast (primary : Set V → List String → Set V × Option GoError)
    (st : Set V) (args : List String) :
    (∀ (ps : List (SecParser V)) (st1 : Set V) (e : GoError),
      primary st args = (st1, some e) →
      Set.Parse st primary args ps = .err st1 e) ∧
    (∀ (st1 stM st2 : Set V) (ps1 ps2 : List (SecParser V)) (p : SecParser V) (e : GoError),
      primary st args = (st1, none) →
      runParsers (stamp st1) ps1 = .ok stM →
      p stM = (st2, some e) →
      st2.errorHandling = .continueOnError →
      Set.Parse st primary args (ps1 ++ p :: ps2) = .err st2 e) := by
  constructor
  · intro ps st1 e h
    simp [Set.Parse, h]
  · intro st1 stM st2 ps1 ps2 p e h1 h2 h3 h4
    simp only [Set.Parse, h1]
    rw [runParsers_append_ok ps1 (stamp st1) stM (p :: ps2) h2]
    simp [runParsers, h3, h4]

/-- Witness for C1: on the concrete registry, a failing primary parse is
returned untouched with a pending secondary parser never run, and a failing
second parser of three stops the run with its own error. -/
theorem parse_fail_fast_witness :
    wPrimaryFail wSt ["-x"] = (wSt, some (.msg "flag provided but not defined: -x")) ∧
    Set.Parse wSt wPrimaryFail ["-x"] [wPassOk] =
      .err wSt (.msg "flag provided but not defined: -x") ∧
    wPrimaryOk wSt [] = (wSt, none) ∧
    runParsers (stamp wSt) [wPassOk] = .ok (stamp wSt) ∧
    wPassFail (stamp wSt) = (stamp wSt, some (.msg "boom")) ∧
    (stamp wSt).errorHandling = .continueOnError ∧
    Set.Parse wSt wPrimaryOk [] ([wPassOk] ++ wPassFail :: [wPassOk]) =
      .err (stamp wSt) (.msg "boom") := by
  refine ⟨rfl, ?_, rfl, rfl, rfl, rfl, ?_⟩
  · exact (parse_fail_fast wPrimaryFail wSt ["-x"]).1 [wPassOk] wSt _ rfl
  · exact (parse_fail_fast wPrimaryOk wSt []).2 wSt (stamp wSt) (stamp wSt) [wPassOk] [wPassOk]
      wPassFail _ rfl rfl rfl rfl

lemma foldl_updateProv_not_mem (v : Source) :
    ∀ (l : List String) (pm : String → Option Source) (n : String), ¬ n ∈ l →
      (l.foldl (fun pm m => updateProv pm m v) pm) n = pm n := by
  intro l
  induction l with
  | nil => intro pm n _; rfl
  | cons a rest ih =>
    intro pm n h
    have h1 : n ≠ a := fun he => h (by simp [he])
    have h2 : ¬ n ∈ rest := fun he => h (by simp [he])
    rw [List.foldl_cons, ih _ n h2]
    simp [updateProv, h1]

lemma foldl_updateProv_mem (v : Source) :
    ∀ (l : List String) (pm : String → Option Source) (n : String), n ∈ l →
      (l.foldl (fun pm m => updateProv pm m v) pm) n = some v := by
  intro l
  induction l with
  | nil => intro pm n h; simp at h
  | cons a rest ih =>
    intro pm n h
    by_cases hn : n ∈ rest
    · exact ih _ n hn
    · have hna : n = a := by
        rcases List.mem_cons.mp h with h1 | h1
        · exact h1
        · exact absurd h1 hn
      subst hna
      rw [List.foldl_cons, foldl_updateProv_not_mem v rest _ n hn]
      simp [updateProv]

lemma stamp_provideMap_eq (st : Set V) :
    (stamp st).provideMap =
      (sortedActualNames st).foldl (fun pm n => updateProv pm n SourceFlags)
        ((sortedFormalNames st).foldl (fun pm n => updateProv pm n SourceDefaultVal)
          st.provideMap) := rfl

lemma mem_sortNames {l : List String} {n : String} : n ∈ sortNames l ↔ n ∈ l := by
  unfold sortNames
  exact (List.perm_insertionSort _ _).mem_iff

lemma stamp_prov_flags (st : Set V) (n : String) (hn : n ∈ st.actual) :
    (stamp st).provideMap n = some SourceFlags := by
  rw [stamp_provideMap_eq]
  exact foldl_updateProv_mem SourceFlags (sortedActualNames st) _ n (mem_sortNames.mpr hn)

lemma stamp_prov_default (st : Set V) (n : String) (hn : n ∈ formalNames st)
    (hn2 : ¬ n ∈ st.actual) :
    (stamp st).provideMap n = some SourceDefaultVal := by
  rw [stamp_provideMap_eq,
    foldl_updateProv_not_mem SourceFlags (sortedActualNames st) _ n
      (fun hmem => hn2 (mem_sortNames.mp hmem)),
    foldl_updateProv_mem SourceDefaultVal (sortedFormalNames st) _ n (mem_sortNames.mpr hn)]

/-- C2: when the primary parse inside `Set.Parse` succeeds on a fresh
registry, the state handed to the secondary parsers has a provenance entry
for every declared flag: `SourceFlags` for each flag the primary parse
consumed (recorded as set), `SourceDefaultVal` for every other declared
flag. -/
theorem parse_stamps_provenance (primary : Set V → List String → Set V × Option GoError)
    (st : Set V) (args : List String) (ps : List (SecParser V)) (st1 : Set V) :
    st.actual = [] →
    primary st args = (st1, none) →
    Set.Parse st primary args ps = runParsers (stamp st1) ps ∧
    ∀ name ∈ formalNames st1, (stamp st1).provideMap name =
      some (if name ∈ st1.actual then SourceFlags else SourceDefaultVal) := by
  intro _ h1
  constructor
  · simp [Set.Parse, h1]
  · intro name hname
    by_cases hn : name ∈ st1.actual
    · rw [stamp_prov_flags st1 name hn, if_pos hn]
    · rw [stamp_prov_default st1 name hname hn, if_neg hn]

/-- Witness for C2: with a primary parse consuming flag "a" of the fresh
two-flag registry, the stamped provenance tags "a" as `flags` and "b" as
`default`. -/
theorem parse_stamps_provenance_witness :
    wSt.actual = [] ∧
    wPrimaryConsumeA wSt [] = ({ wSt with actual := ["a"] }, none) ∧
    Set.Parse wSt wPrimaryConsumeA [] [] =
      runParsers (stamp { wSt with actual := ["a"] }) [] ∧
    (stamp { wSt with actual := ["a"] }).provideMap "a" = some SourceFlags ∧
    (stamp { wSt with actual := ["a"] }).provideMap "b" = some SourceDefaultVal := by
  have h := parse_stamps_provenance wPrimaryConsumeA wSt [] []
    { wSt with actual := ["a"] } rfl rfl
  have ha := h.2 "a" (by decide)
  have hb := h.2 "b" (by decide)
  rw [if_pos (by decide)] at ha
  rw [if_neg (by decide)] at hb
  exact ⟨rfl, rfl, h.1, ha, hb⟩

end ParseProofs


section ProvenanceMonotonic

variable {V : Type}

lemma updateFlagValue_names (l : List (GoFlag V)) (name : String) (v : V) :
    (updateFlagValue l name v).map (·.name) = l.map (·.name) := by
  unfold updateFlagValue
  rw [List.map_map]
  apply List.map_congr_left
  intro g _
  by_cases h : (g.name == name) = true <;> simp [Function.comp, h]

lemma insertActual_superset (l : List String) (n m : String) (hm : m ∈ l) :
    m ∈ insertActual l n := by
  unfold insertActual
  split
  · exact hm
  · exact List.mem_append_left _ hm

lemma set_frame (st : Set V) (src : Source) (name raw : String) :
    formalNames (Set.Set st src name raw).1 = formalNames st ∧
    (∀ m ∈ st.actual, m ∈ (Set.Set st src name raw).1.actual) ∧
    (∀ m, m ≠ name → (Set.Set st src name raw).1.provideMap m = st.provideMap m) ∧
    (∀ m, (Set.Set st src name raw).1.provideMap m = none → st.provideMap m = none) := by
  rcases hf : findFlag st name with _ | fl
  · refine ⟨?_, ?_, ?_, ?_⟩ <;> simp [Set.Set, fsSet, hf]
  · rcases hs : fl.setf fl.value raw with ⟨v', e⟩
    cases e with
    | some e =>
      have hres : Set.Set st src name raw =
          ({ st with formal := updateFlagValue st.formal name v' }, some e) := by
        simp [Set.Set, fsSet, hf, hs]
      rw [hres]
      exact ⟨updateFlagValue_names st.formal name v', fun m hm => hm,
        fun m _ => rfl, fun m h => h⟩
    | none =>
      have hres : Set.Set st src name raw =
          ({ st with formal := updateFlagValue st.formal name v',
                     actual := insertActual st.actual name,
                     provideMap := updateProv st.provideMap name src }, none) := by
        simp [Set.Set, fsSet, hf, hs]
      rw [hres]
      refine ⟨updateFlagValue_names st.formal name v',
        fun m hm => insertActual_superset st.actual name m hm, ?_, ?_⟩
      · intro m hm
        simp [updateProv, hm]
      · intro m hm
        by_cases hmn : m = name
        · simp [updateProv, hmn] at hm
        · simpa [updateProv, hmn] using hm

lemma setSplit_frame (src : Source) (flagName : String) :
    ∀ (vs : List String) (st : Set V),
      formalNames (setSplit st src flagName vs).1 = formalNames st ∧
      (∀ m ∈ st.actual, m ∈ (setSplit st src flagName vs).1.actual) ∧
      (∀ m, m ≠ flagName → (setSplit st src flagName vs).1.provideMap m = st.provideMap m) ∧
      (∀ m, (setSplit st src flagName vs).1.provideMap m = none → st.provideMap m = none) := by
  intro vs
  induction vs with
  | nil => intro st; exact ⟨rfl, fun m hm => hm, fun m _ => rfl, fun m h => h⟩
  | cons v rest ih =>
    intro st
    obtain ⟨h1, h2, h3, h4⟩ := set_frame st src flagName v
    rcases hres : Set.Set st src flagName v with ⟨st2, e⟩
    rw [hres] at h1 h2 h3 h4
    cases e with
    | some e =>
      simp only [setSplit, hres]
      exact ⟨h1, h2, h3, h4⟩
    | none =>
      obtain ⟨i1, i2, i3, i4⟩ := ih st2
      simp only [setSplit, hres]
      exact ⟨by rw [i1, h1], fun m hm => i2 m (h2 m hm),
        fun m hm => by rw [i3 m hm, h3 m hm],
        fun m hm => h4 m (i4 m hm)⟩

lemma envSetOnce_frame (st : Set V) (src : Source) (n val splitValBy : String) :
    formalNames ((if splitValBy ≠ "" then setSplit st src n (val.splitOn splitValBy)
        else match Set.Set st src n val with
          | (st', some e) => (st', some (GoError.wrapped "env: " e))
          | (st', none) => (st', none)).1) = formalNames st ∧
    (∀ m ∈ st.actual, m ∈ ((if splitValBy ≠ "" then setSplit st src n (val.splitOn splitValBy)
        else match Set.Set st src n val with
          | (st', some e) => (st', some (GoError.wrapped "env: " e))
          | (st', none) => (st', none)).1).actual) ∧
    (∀ m, m ≠ n → ((if splitValBy ≠ "" then setSplit st src n (val.splitOn splitValBy)
        else match Set.Set st src n val with
          | (st', some e) => (st', some (GoError.wrapped "env: " e))
          | (st', none) => (st', none)).1).provideMap m = st.provideMap m) ∧
    (∀ m, ((if splitValBy ≠ "" then setSplit st src n (val.splitOn splitValBy)
        else match Set.Set st src n val with
          | (st', some e) => (st', some (GoError.wrapped "env: " e))
          | (st', none) => (st', none)).1).provideMap m = none → st.provideMap m = none) := by
  by_cases hsp : splitValBy = ""
  · simp only [hsp, ne_eq, not_true_eq_false, if_false]
    rcases hset : Set.Set st src n val with ⟨st2, e⟩
    obtain ⟨h1, h2, h3, h4⟩ := set_frame st src n val
    rw [hset] at h1 h2 h3 h4
    cases e <;> simp only [hset] <;> exact ⟨h1, h2, h3, h4⟩
  · simp only [ne_eq, hsp, not_false_eq_true, if_true]
    exact setSplit_frame src n (val.splitOn splitValBy) st

lemma envCallback_frame (o : EnvOptions) : FrameStep (@envCallback V o) := by
  intro st n
  rcases hm : o.mapper (o.pfx ++ n) with ⟨name, splitValBy⟩
  rcases hlu : o.lookupFunc name with _ | val
  · rcases hef : o.envFile with _ | path
    · rcases hfd : o.fileData name with _ | val
      · simp only [envCallback, hm, hlu, hef, hfd]
        simp
      · simp only [envCallback, hm, hlu, hef, hfd]
        exact envSetOnce_frame st ("env: " ++ name) n val splitValBy
    · rcases hfd : o.fileData name with _ | val
      · simp only [envCallback, hm, hlu, hef, hfd]
        simp
      · simp only [envCallback, hm, hlu, hef, hfd]
        exact envSetOnce_frame st ("envfile[" ++ path ++ "]: " ++ name) n val splitValBy
  · simp only [envCallback, hm, hlu]
    exact envSetOnce_frame st ("env: " ++ name) n val splitValBy

lemma visitList_frame (g : VisitFn V) (hg : FrameStep g) :
    ∀ (l : List String) (st : Set V) (A : List String),
      (∀ n ∈ l, ¬ n ∈ A) →
      formalNames (visitList g st l).1 = formalNames st ∧
      (∀ m ∈ st.actual, m ∈ (visitList g st l).1.actual) ∧
      (∀ m ∈ A, (visitList g st l).1.provideMap m = st.provideMap m) ∧
      (∀ m, (visitList g st l).1.provideMap m = none → st.provideMap m = none) := by
  intro l
  induction l with
  | nil => intro st A _; exact ⟨rfl, fun m hm => hm, fun m _ => rfl, fun m h => h⟩
  | cons n rest ih =>
    intro st A h
    obtain ⟨h1, h2, h3, h4⟩ := hg st n
    rcases hr : g st n with ⟨st2, e⟩
    rw [hr] at h1 h2 h3 h4
    have hnA : ¬ n ∈ A := h n (by simp)
    have hrest : ∀ x ∈ rest, ¬ x ∈ A := fun x hx => h x (by simp [hx])
    cases e with
    | some e =>
      simp only [visitList, hr]
      exact ⟨h1, h2, fun m hm => h3 m (fun he => hnA (he ▸ hm)), h4⟩
    | none =>
      obtain ⟨i1, i2, i3, i4⟩ := ih st2 A hrest
      simp only [visitList, hr]
      exact ⟨by rw [i1, h1], fun m hm => i2 m (h2 m hm),
        fun m hm => by rw [i3 m hm, h3 m (fun he => hnA (he ▸ hm))],
        fun m hm => h4 m (i4 m hm)⟩

lemma remainingNames_not_actual (st : Set V) :
    ∀ n ∈ remainingNames st, ¬ n ∈ st.actual := by
  intro n hn hmem
  unfold remainingNames at hn
  have hd := List.of_mem_filter hn
  exact of_decide_eq_true hd (mem_sortNames.mpr hmem)

lemma envParse_preserves (o : EnvOptions) : PreservesSet (@envParse V o) := by
  intro st
  have heq : envParse o st = visitList (envCallback o) st (remainingNames st) :=
    visitRemaining_eq st (envCallback o)
  obtain ⟨h1, h2, h3, h4⟩ := visitList_frame (envCallback o) (envCallback_frame o)
    (remainingNames st) st st.actual (remainingNames_not_actual st)
  rw [heq]
  exact ⟨h1, h2, h3, h4⟩

lemma runParsers_preserves :
    ∀ (ps : List (SecParser V)) (st stF : Set V),
      (∀ p ∈ ps, PreservesSet p) →
      runParsers st ps = .ok stF →
      formalNames stF = formalNames st ∧
      (∀ m ∈ st.actual, m ∈ stF.actual) ∧
      (∀ m ∈ st.actual, stF.provideMap m = st.provideMap m) ∧
      (∀ m, stF.provideMap m = none → st.provideMap m = none) := by
  intro ps
  induction ps with
  | nil =>
    intro st stF _ h
    cases h
    exact ⟨rfl, fun m hm => hm, fun m _ => rfl, fun m h => h⟩
  | cons p rest ih =>
    intro st stF hps h
    have hp : PreservesSet p := hps p (by simp)
    obtain ⟨h1, h2, h3, h4⟩ := hp st
    rcases hr : p st with ⟨st2, e⟩
    rw [hr] at h1 h2 h3 h4
    cases e with
    | some e => rcases hEH : st2.errorHandling <;> simp [runParsers, hr, hEH] at h
    | none =>
      have h' : runParsers st2 rest = .ok stF := by simpa [runParsers, hr] using h
      obtain ⟨i1, i2, i3, i4⟩ := ih st2 stF (fun q hq => hps q (by simp [hq])) h'
      exact ⟨by rw [i1, h1], fun m hm => i2 m (h2 m hm),
        fun m hm => by rw [i3 m (h2 m hm), h3 m hm],
        fun m hm => h4 m (i4 m hm)⟩

/-- C9: after a resolution run whose secondary passes all preserve already
set flags — the semantic property of passes that discover eligible flags
only through `VisitRemaining`, and one every env pass (`envParse`) has —
every declared flag carries a provenance entry (the provenance map being a
function, it carries exactly one), and every flag the primary parse bound is
still tagged `SourceFlags` at the end: no pass overwrote it. -/
theorem parse_provenance_monotonic (primary : Set V → List String → Set V × Option GoError)
    (st : Set V) (args : List String) (ps : List (SecParser V)) (st1 : Set V) :
    (∀ p ∈ ps, PreservesSet p) →
    primary st args = (st1, none) →
    (Set.Parse st primary args ps).isOk = true →
    ((∀ name ∈ formalNames st1,
        (provOf (Set.Parse st primary args ps) name).isSome = true) ∧
      (∀ name ∈ st1.actual,
        provOf (Set.Parse st primary args ps) name = some SourceFlags)) ∧
    (∀ o : EnvOptions, PreservesSet (@envParse V o)) := by
  intro hps h1 hok
  cases hout : Set.Parse st primary args ps with
  | err stF e =>
    rw [hout] at hok
    exact absurd hok (by simp [ParseOutcome.isOk])
  | exited c =>
    rw [hout] at hok
    exact absurd hok (by simp [ParseOutcome.isOk])
  | panicked e =>
    rw [hout] at hok
    exact absurd hok (by simp [ParseOutcome.isOk])
  | ok stF =>
    have hrun : runParsers (stamp st1) ps = .ok stF := by
      simp only [Set.Parse, h1] at hout
      exact hout
    obtain ⟨r1, r2, r3, r4⟩ := runParsers_preserves ps (stamp st1) stF hps hrun
    refine ⟨⟨?_, ?_⟩, envParse_preserves⟩
    · intro name hname
      have hsome : ((stamp st1).provideMap name).isSome = true := by
        by_cases hn : name ∈ st1.actual
        · rw [stamp_prov_flags st1 name hn]; rfl
        · rw [stamp_prov_default st1 name hname hn]; rfl
      simp only [provOf]
      cases hf : stF.provideMap name with
      | some s => rfl
      | none =>
        rw [r4 name hf] at hsome
        exact absurd hsome (by simp)
    · intro name hname
      simp only [provOf]
      rw [r3 name hname, stamp_prov_flags st1 name hname]

/-- Witness for C9: the fresh two-flag registry, a primary parse binding
flag "a", and a single env pass whose environment supplies only variable
"b"; afterwards "a" is still tagged `flags` and "b" carries an entry. -/
theorem parse_provenance_monotonic_witness :
    wPrimaryConsumeA wSt [] = ({ wSt with actual := ["a"] }, none) ∧
    (Set.Parse wSt wPrimaryConsumeA [] [envParse wEnvOpts]).isOk = true ∧
    provOf (Set.Parse wSt wPrimaryConsumeA [] [envParse wEnvOpts]) "a" = some SourceFlags ∧
    (provOf (Set.Parse wSt wPrimaryConsumeA [] [envParse wEnvOpts]) "b").isSome = true := by
  have hps : ∀ p ∈ [@envParse String wEnvOpts], PreservesSet p := by
    intro p hp
    rw [List.mem_singleton.mp hp]
    exact envParse_preserves wEnvOpts
  have hok : (Set.Parse wSt wPrimaryConsumeA [] [envParse wEnvOpts]).isOk = true := rfl
  have h := parse_provenance_monotonic wPrimaryConsumeA wSt [] [envParse wEnvOpts]
    { wSt with actual := ["a"] } hps rfl hok
  exact ⟨rfl, hok, h.1.2 "a" (by decide), h.1.1 "b" (by decide)⟩

end ProvenanceMonotonic

end Flagr
